import Mathlib

/-!
Verification development for the chroma-langchain retrieval pipeline.

The repository's two notebooks (`qa.ipynb`, `persistent-qa.ipynb`) drive a
retrieval-augmented question-answering pipeline: documents are split into
chunks by `RecursiveCharacterTextSplitter`, embedded, stored in a Chroma
vector index (optionally backed by a `persist_directory`), queried through
`VectorDBQA.run`, and cleaned up with `delete_collection`.  The notebooks
only call these components; their implementations live outside the
repository, so every component below is modelled from the specification
(spec.md), as noted on each definition.  Numeric vector entries are
modelled as rationals; the real-valued cosine similarity of the
specification is expressed over ℝ via `Real.sqrt`.
-/

namespace RAG

/-- Modelled from the spec: string-to-string metadata carried by documents
(§3, Document.source_metadata). -/
abbrev Metadata := List (String × String)

/-- Modelled from the spec: a plain-text document with identifier and
metadata (§3).  The notebooks obtain documents from `TextLoader`, an
external collaborator; text is modelled as a list of characters. -/
structure Document where
  id : Nat
  rawText : List Char
  meta : Metadata
deriving DecidableEq

/-- Modelled from the spec: a chunk of a parent document (§3): id, parent
document id, text, offset range in the parent, metadata inherited from the
document, and the chunk's index within the document. -/
structure Chunk where
  id : Nat
  parentDocumentId : Nat
  text : List Char
  offsetStart : Nat
  offsetEnd : Nat
  meta : Metadata
  chunkIndex : Nat
deriving DecidableEq

/-- Modelled from the spec: the trailing `n` characters of a list (used for
the overlap carried from one chunk into the next, §4.1). -/
def takeR (n : Nat) (l : List Char) : List Char := l.drop (l.length - n)

/-- Modelled from the spec: the hard-cut fallback of the chunker (§4.1),
cutting text into consecutive pieces of at most `B` characters.  The first
argument is fuel; callers pass the text's length, which suffices whenever
`B > 0`. -/
def hardCutF : Nat → Nat → List Char → List (List Char)
  | _, _, [] => []
  | 0, B, t => [t.take B]
  | fuel + 1, B, t => t.take B :: hardCutF fuel B (t.drop B)

/-- Modelled from the spec: hard cut at `B` characters (§4.1, final
fallback). -/
def hardCut (B : Nat) (t : List Char) : List (List Char) := hardCutF t.length B t

/-- Modelled from the spec: split text on a separator, keeping each
separator occurrence attached to the end of the piece it terminates
(§4.1).  `acc` holds the current piece reversed; the first argument is
fuel, for which the text's length suffices. -/
def splitOnSepF : Nat → List Char → List Char → List Char → List (List Char)
  | _, _, acc, [] => [acc.reverse]
  | 0, _, acc, rest => [acc.reverse ++ rest]
  | fuel + 1, sep, acc, c :: cs =>
    if sep.isPrefixOf (c :: cs) && !sep.isEmpty then
      (acc.reverse ++ sep) :: splitOnSepF fuel sep [] (List.drop (sep.length - 1) cs)
    else
      splitOnSepF fuel sep (c :: acc) cs

/-- Modelled from the spec: split text on one separator (§4.1). -/
def splitOnSep (sep : List Char) (t : List Char) : List (List Char) :=
  splitOnSepF t.length sep [] t

/-- Modelled from the spec: the prioritized separator list of the chunker
(§4.1): paragraph break, line break, sentence boundary, word boundary; the
character-level fallback is `hardCut`. -/
def separators : List (List Char) := [['\n', '\n'], ['\n'], ['.', ' '], [' ']]

/-- Modelled from the spec: recursive splitting (§4.1).  The text is split
on the current separator; pieces of length at most `B` are kept, pieces
still too large are recursively split on the next separator, and when no
separator remains the piece is hard-cut at `B`. -/
def splitRec : List (List Char) → Nat → List Char → List (List Char)
  | [], B, t => hardCut B t
  | sep :: rest, B, t =>
    (splitOnSep sep t).flatMap fun p => if p.length ≤ B then [p] else splitRec rest B p

/-- Modelled from the spec: greedy left-to-right re-merge of adjacent small
pieces up to the budget `B` (§4.1; §9 records that the re-merge policy is
an implementer's choice and asks for a deterministic greedy one).  `cur`
is the piece being accumulated. -/
def mergeAux (B : Nat) : List Char → List (List Char) → List (List Char)
  | cur, [] => if cur.isEmpty then [] else [cur]
  | cur, p :: ps =>
    if cur.isEmpty then mergeAux B p ps
    else if cur.length + p.length ≤ B then mergeAux B (cur ++ p) ps
    else cur :: mergeAux B p ps

/-- Modelled from the spec: turn merged pieces into chunks (§3, §4.1),
prepending `ov` characters of trailing context of the previous chunk to
the start of each subsequent chunk.  `prev` is the previous chunk's full
text, `pos` the end offset of the previous piece in the parent document,
and `i` the next chunk index. -/
def buildChunksGo (d : Document) (ov : Nat) : List Char → Nat → Nat → List (List Char) → List Chunk
  | _, _, _, [] => []
  | prev, pos, i, p :: ps =>
    { id := i, parentDocumentId := d.id, text := takeR ov prev ++ p,
      offsetStart := pos - (takeR ov prev).length, offsetEnd := pos + p.length,
      meta := d.meta, chunkIndex := i } ::
      buildChunksGo d ov (takeR ov prev ++ p) (pos + p.length) (i + 1) ps

/-- Modelled from the spec: the chunker error (§7, ConfigurationError). -/
inductive ChunkError where
  | configurationError
deriving DecidableEq

/-- Modelled from the spec: the chunker contract `split(document, max_size,
overlap_size)` (§4.1).  Parameters are validated (`max_size > 0`,
`0 ≤ overlap_size < max_size`, else ConfigurationError); the text is
recursively split and re-merged with budget `max_size − overlap_size` so
that prepending `overlap_size` characters of trailing context keeps every
chunk within `max_size` (§3 chunk invariant). -/
def split (d : Document) (maxSize overlapSize : Int) : Except ChunkError (List Chunk) :=
  if maxSize ≤ 0 ∨ overlapSize < 0 ∨ maxSize ≤ overlapSize then
    .error .configurationError
  else
    .ok (buildChunksGo d overlapSize.toNat [] 0 0
      (mergeAux (maxSize.toNat - overlapSize.toNat) []
        (splitRec separators (maxSize.toNat - overlapSize.toNat) d.rawText)))

lemma takeR_length_le (n : Nat) (l : List Char) : (takeR n l).length ≤ n := by
  simp only [takeR, List.length_drop]
  omega

lemma mem_hardCutF_length_le (fuel B : Nat) (t : List Char) :
    ∀ p ∈ hardCutF fuel B t, p.length ≤ B := by
  induction fuel generalizing t with
  | zero =>
    intro p hp
    cases t with
    | nil => simp [hardCutF] at hp
    | cons c cs =>
      simp only [hardCutF, List.mem_singleton] at hp
      subst hp
      simp [List.length_take]
  | succ fuel ih =>
    intro p hp
    cases t with
    | nil => simp [hardCutF] at hp
    | cons c cs =>
      simp only [hardCutF, List.mem_cons] at hp
      rcases hp with hp | hp
      · subst hp; simp [List.length_take]
      · exact ih _ p hp

lemma mem_splitRec_length_le (seps : List (List Char)) (B : Nat) (t : List Char) :
    ∀ p ∈ splitRec seps B t, p.length ≤ B := by
  induction seps generalizing t with
  | nil =>
    intro p hp
    exact mem_hardCutF_length_le _ _ _ p hp
  | cons sep rest ih =>
    intro p hp
    simp only [splitRec, List.mem_flatMap] at hp
    obtain ⟨q, _, hq⟩ := hp
    by_cases h : q.length ≤ B
    · simp only [if_pos h, List.mem_singleton] at hq
      exact hq ▸ h
    · simp only [if_neg h] at hq
      exact ih _ p hq

lemma mem_mergeAux_length_le (B : Nat) (ps : List (List Char)) (cur : List Char)
    (hcur : cur.length ≤ B) (hps : ∀ p ∈ ps, p.length ≤ B) :
    ∀ q ∈ mergeAux B cur ps, q.length ≤ B := by
  induction ps generalizing cur with
  | nil =>
    intro q hq
    simp only [mergeAux] at hq
    split at hq
    · simp at hq
    · simp only [List.mem_singleton] at hq
      exact hq ▸ hcur
  | cons p ps ih =>
    intro q hq
    have hp : p.length ≤ B := hps p (List.mem_cons_self _ _)
    have hps' : ∀ r ∈ ps, r.length ≤ B := fun r hr => hps r (List.mem_cons_of_mem _ hr)
    simp only [mergeAux] at hq
    split at hq
    · exact ih p hp hps' q hq
    · split at hq
      · rename_i hlen
        exact ih (cur ++ p) (by simpa using hlen) hps' q hq
      · rcases List.mem_cons.mp hq with hq | hq
        · exact hq ▸ hcur
        · exact ih p hp hps' q hq

lemma mem_buildChunksGo_text_length_le (d : Document) (ov B : Nat)
    (ps : List (List Char)) (hps : ∀ p ∈ ps, p.length ≤ B) :
    ∀ prev pos i, ∀ c ∈ buildChunksGo d ov prev pos i ps, c.text.length ≤ ov + B := by
  induction ps with
  | nil => intro prev pos i c hc; simp [buildChunksGo] at hc
  | cons p ps ih =>
    intro prev pos i c hc
    have hp : p.length ≤ B := hps p (List.mem_cons_self _ _)
    have hps' : ∀ r ∈ ps, r.length ≤ B := fun r hr => hps r (List.mem_cons_of_mem _ hr)
    simp only [buildChunksGo, List.mem_cons] at hc
    rcases hc with hc | hc
    · subst hc
      simp only [List.length_append]
      have := takeR_length_le ov prev
      omega
    · exact ih hps' _ _ _ c hc

lemma buildChunksGo_chain (d : Document) (ov : Nat) :
    ∀ ps prev pos i, List.Chain' (fun a b : Chunk =>
      b.text.take (takeR ov a.text).length = takeR ov a.text)
      (buildChunksGo d ov prev pos i ps) := by
  intro ps
  induction ps with
  | nil => intro prev pos i; simp [buildChunksGo]
  | cons p ps ih =>
    intro prev pos i
    simp only [buildChunksGo]
    rw [List.chain'_cons']
    refine ⟨?_, ih _ _ _⟩
    intro y hy
    cases ps with
    | nil => simp [buildChunksGo] at hy
    | cons q qs =>
      simp only [buildChunksGo, List.head?_cons, Option.mem_def, Option.some_inj] at hy
      subst hy
      exact List.take_left _ _

lemma buildChunksGo_get (d : Document) (ov : Nat) :
    ∀ ps prev pos i j (hj : j < (buildChunksGo d ov prev pos i ps).length),
      ((buildChunksGo d ov prev pos i ps).get ⟨j, hj⟩).meta = d.meta ∧
      ((buildChunksGo d ov prev pos i ps).get ⟨j, hj⟩).chunkIndex = i + j := by
  intro ps
  induction ps with
  | nil => intro prev pos i j hj; simp [buildChunksGo] at hj
  | cons p ps ih =>
    intro prev pos i j hj
    cases j with
    | zero => exact ⟨rfl, rfl⟩
    | succ j =>
      have hj' : j < (buildChunksGo d ov (takeR ov prev ++ p) (pos + p.length) (i + 1) ps).length := by
        simpa [buildChunksGo] using hj
      have := ih (takeR ov prev ++ p) (pos + p.length) (i + 1) j hj'
      refine ⟨this.1, ?_⟩
      rw [show i + (j + 1) = (i + 1) + j by omega]
      exact this.2

lemma buildChunksGo_map_text (d₁ d₂ : Document) (ov : Nat) :
    ∀ ps prev pos₁ pos₂ i₁ i₂,
      (buildChunksGo d₁ ov prev pos₁ i₁ ps).map Chunk.text =
      (buildChunksGo d₂ ov prev pos₂ i₂ ps).map Chunk.text := by
  intro ps
  induction ps with
  | nil => intro prev pos₁ pos₂ i₁ i₂; simp [buildChunksGo]
  | cons p ps ih =>
    intro prev pos₁ pos₂ i₁ i₂
    simp only [buildChunksGo, List.map_cons]
    exact congrArg (_ :: ·) (ih _ _ _ _ _)

/-- C7: `split(document, max_size, overlap_size)` fails with
ConfigurationError whenever `max_size ≤ 0` or `overlap_size < 0` or
`overlap_size ≥ max_size`, and succeeds for every parameter pair with
`max_size > 0` and `0 ≤ overlap_size < max_size`. -/
theorem chunker_configuration_contract (d : Document) (ms ov : Int) :
    ((ms ≤ 0 ∨ ov < 0 ∨ ms ≤ ov) → split d ms ov = .error .configurationError) ∧
    (0 < ms → 0 ≤ ov → ov < ms → ∃ cs, split d ms ov = .ok cs) := by
  constructor
  · intro h
    rw [split, if_pos h]
  · intro h1 h2 h3
    exact ⟨buildChunksGo d ov.toNat [] 0 0
      (mergeAux (ms.toNat - ov.toNat) []
        (splitRec separators (ms.toNat - ov.toNat) d.rawText)),
      by rw [split, if_neg (by omega)]⟩

/-- C7 witness: invalid parameters are rejected and valid ones accepted on a
concrete document. -/
theorem chunker_configuration_contract_witness :
    split ⟨7, ['a', 'b', 'c', 'd', 'e'], [("k", "v")]⟩ 0 0 = .error .configurationError ∧
    ∃ cs, split ⟨7, ['a', 'b', 'c', 'd', 'e'], [("k", "v")]⟩ 4 1 = .ok cs :=
  ⟨(chunker_configuration_contract ⟨7, ['a', 'b', 'c', 'd', 'e'], [("k", "v")]⟩ 0 0).1
      (Or.inl (by decide)),
    (chunker_configuration_contract ⟨7, ['a', 'b', 'c', 'd', 'e'], [("k", "v")]⟩ 4 1).2
      (by decide) (by decide) (by decide)⟩

/-- C3: for valid parameters, `split` succeeds and every produced chunk's
text length is at most `max_size`, and every consecutive pair of chunks
agrees on the overlap: the trailing `overlap_size` characters of a chunk
are the leading characters of the next chunk. -/
theorem chunk_invariants (d : Document) (ms ov : Int)
    (h1 : 0 < ms) (h2 : 0 ≤ ov) (h3 : ov < ms) :
    ∃ cs, split d ms ov = .ok cs ∧
      (∀ c ∈ cs, (c.text.length : Int) ≤ ms) ∧
      List.Chain' (fun a b : Chunk =>
        b.text.take (takeR ov.toNat a.text).length = takeR ov.toNat a.text) cs := by
  refine ⟨buildChunksGo d ov.toNat [] 0 0
      (mergeAux (ms.toNat - ov.toNat) []
        (splitRec separators (ms.toNat - ov.toNat) d.rawText)),
    by rw [split, if_neg (by omega)], ?_, buildChunksGo_chain d ov.toNat _ _ _ _⟩
  intro c hc
  have hpieces : ∀ p ∈ mergeAux (ms.toNat - ov.toNat) []
      (splitRec separators (ms.toNat - ov.toNat) d.rawText), p.length ≤ ms.toNat - ov.toNat :=
    mem_mergeAux_length_le _ _ [] (by simp)
      (mem_splitRec_length_le separators (ms.toNat - ov.toNat) d.rawText)
  have := mem_buildChunksGo_text_length_le d ov.toNat (ms.toNat - ov.toNat) _ hpieces [] 0 0 c hc
  omega

/-- C3 witness: chunk invariants hold at a concrete document and concrete
valid parameters. -/
theorem chunk_invariants_witness :
    ∃ cs, split ⟨7, ['a', 'b', 'c', 'd', 'e'], [("k", "v")]⟩ 4 1 = .ok cs ∧
      (∀ c ∈ cs, (c.text.length : Int) ≤ 4) ∧
      List.Chain' (fun a b : Chunk =>
        b.text.take (takeR (1 : Int).toNat a.text).length = takeR (1 : Int).toNat a.text) cs :=
  chunk_invariants ⟨7, ['a', 'b', 'c', 'd', 'e'], [("k", "v")]⟩ 4 1
    (by decide) (by decide) (by decide)

/-- C8: the chunker is deterministic: on documents with byte-identical raw
text and equal parameters, the produced chunk sequences have byte-identical
texts, in the same order. -/
theorem chunker_deterministic (d₁ d₂ : Document) (ms ov : Int)
    (h : d₁.rawText = d₂.rawText) :
    (split d₁ ms ov).map (List.map Chunk.text) = (split d₂ ms ov).map (List.map Chunk.text) := by
  by_cases hc : ms ≤ 0 ∨ ov < 0 ∨ ms ≤ ov
  · rw [split, split, if_pos hc, if_pos hc]
  · rw [split, split, if_neg hc, if_neg hc]
    simp only [Except.map]
    rw [h]
    exact congrArg Except.ok (buildChunksGo_map_text d₁ d₂ _ _ _ _ _ _ _)

/-- C8 witness: two documents sharing raw text but differing in identity
produce the same chunk texts. -/
theorem chunker_deterministic_witness :
    (split ⟨1, ['x', 'y', ' ', 'z'], []⟩ 3 0).map (List.map Chunk.text) =
    (split ⟨2, ['x', 'y', ' ', 'z'], [("a", "b")]⟩ 3 0).map (List.map Chunk.text) :=
  chunker_deterministic ⟨1, ['x', 'y', ' ', 'z'], []⟩ ⟨2, ['x', 'y', ' ', 'z'], [("a", "b")]⟩
    3 0 (by decide)

/-- C9: for valid parameters, `split` succeeds and every produced chunk
carries metadata equal to its parent document's metadata together with the
chunk's index within the document. -/
theorem chunk_metadata (d : Document) (ms ov : Int)
    (h1 : 0 < ms) (h2 : 0 ≤ ov) (h3 : ov < ms) :
    ∃ cs, split d ms ov = .ok cs ∧
      ∀ j (hj : j < cs.length),
        (cs.get ⟨j, hj⟩).meta = d.meta ∧ (cs.get ⟨j, hj⟩).chunkIndex = j := by
  refine ⟨buildChunksGo d ov.toNat [] 0 0
      (mergeAux (ms.toNat - ov.toNat) []
        (splitRec separators (ms.toNat - ov.toNat) d.rawText)),
    by rw [split, if_neg (by omega)], ?_⟩
  intro j hj
  have := buildChunksGo_get d ov.toNat _ [] 0 0 j hj
  simpa using this

/-- C9 witness: metadata inheritance and chunk indexing at a concrete
document. -/
theorem chunk_metadata_witness :
    ∃ cs, split ⟨7, ['a', 'b', 'c', 'd', 'e'], [("k", "v")]⟩ 5 2 = .ok cs ∧
      ∀ j (hj : j < cs.length),
        (cs.get ⟨j, hj⟩).meta = [("k", "v")] ∧ (cs.get ⟨j, hj⟩).chunkIndex = j :=
  chunk_metadata ⟨7, ['a', 'b', 'c', 'd', 'e'], [("k", "v")]⟩ 5 2
    (by decide) (by decide) (by decide)

/-- Modelled from the spec: an embedding vector (§3); entries are modelled
as rationals in place of floating-point numbers. -/
abbrev Vec := List ℚ

/-- Modelled from the spec: the dot product of two vectors (§4.2). -/
def dotQ (u v : Vec) : ℚ := (List.zipWith (· * ·) u v).sum

/-- Modelled from the spec: the squared L2 norm of a vector (§4.2). -/
def normSq (u : Vec) : ℚ := dotQ u u

/-- Positive clamp used by the similarity comparator: substitutes 1 for a
non-positive squared norm so that the comparator matches the real-valued
cosine similarity below on all inputs (a zero vector has similarity 0 to
everything, in both readings). -/
def posn (x : ℚ) : ℚ := if x ≤ 0 then 1 else x

/-- Modelled from the spec: the executable comparison "cosine similarity of
the first vector is at least that of the second" (§4.2), expressed on the
rational data (dot product `a` and squared norm `nu` of the first vector,
`b` and `nw` of the second) by sign analysis and cross-multiplied squares,
so the index code stays square-root free. -/
def simGEb (a nu b nw : ℚ) : Bool :=
  if 0 ≤ a then
    if 0 ≤ b then decide (b * b * posn nu ≤ a * a * posn nw) else true
  else
    if 0 ≤ b then false else decide (a * a * posn nw ≤ b * b * posn nu)

/-- The real value `a / sqrt nu` the comparator `simGEb` decides about
(with non-positive norms clamped to 1). -/
noncomputable def ev (a n : ℚ) : ℝ := (a : ℝ) / Real.sqrt (posn n)

/-- Modelled from the spec: the L2-normalized form of a vector, over ℝ
(§4.2: cosine similarity is the dot product of L2-normalized vectors). -/
noncomputable def l2normalize (u : Vec) : List ℝ :=
  u.map fun x : ℚ => (x : ℝ) / Real.sqrt ((normSq u : ℚ) : ℝ)

/-- Dot product over ℝ. -/
noncomputable def dotR (u v : List ℝ) : ℝ := (List.zipWith (· * ·) u v).sum

/-- Modelled from the spec: cosine similarity, defined as the dot product
of the L2-normalized vectors (§4.2). -/
noncomputable def cosSim (q u : Vec) : ℝ := dotR (l2normalize q) (l2normalize u)

/-- Modelled from the spec: one ranked entry of a QueryResult (§3): the
stored chunk with its vector, tagged with its insertion position in the
collection (insertion order breaks similarity ties, §4.2). -/
structure QEntry where
  idx : Nat
  chunk : Chunk
  vec : Vec
deriving DecidableEq

/-- The similarity of an entry to the query vector `q`, in the square-root
free reading used by the comparator. -/
noncomputable def evOf (q : Vec) (e : QEntry) : ℝ := ev (dotQ q e.vec) (normSq e.vec)

/-- Modelled from the spec: the ranking comparator of `query` (§4.2):
descending cosine similarity, ties broken by insertion order (earlier
wins). -/
def rankB (q : Vec) (x y : QEntry) : Bool :=
  simGEb (dotQ q x.vec) (normSq x.vec) (dotQ q y.vec) (normSq y.vec) &&
    (!simGEb (dotQ q y.vec) (normSq y.vec) (dotQ q x.vec) (normSq x.vec) ||
      Nat.ble x.idx y.idx)

/-- The ranking comparator as a relation, for sorting. -/
def rankRel (q : Vec) (x y : QEntry) : Prop := rankB q x y = true

instance (q : Vec) : DecidableRel (rankRel q) :=
  fun x y => inferInstanceAs (Decidable (rankB q x y = true))

/-- Tag the stored entries of a collection with their insertion positions,
starting at `i`. -/
def indexEntries : Nat → List (Chunk × Vec) → List QEntry
  | _, [] => []
  | i, e :: es => ⟨i, e.1, e.2⟩ :: indexEntries (i + 1) es

/-- Modelled from the spec: a collection (§3): insertion-ordered chunks
with their embedding vectors, plus the collection's established embedding
dimension (`none` until the first write). -/
structure Collection where
  entries : List (Chunk × Vec)
  dim : Option Nat
deriving DecidableEq

/-- Modelled from the spec: the in-memory vector index, a finite map from
collection names to collections (§3, §4.2). -/
abbrev Index := List (String × Collection)

/-- Modelled from the spec: the vector index error taxonomy used by the
claims (§7). -/
inductive VError where
  | notFoundError
  | dimensionMismatchError
  | corruptStateError
deriving DecidableEq

/-- Look up a collection by name. -/
def findColl : Index → String → Option Collection
  | [], _ => none
  | (n, c) :: rest, cname => if n = cname then some c else findColl rest cname

/-- Modelled from the spec: `query(collection, query_vector, k)` (§4.2):
fails with NotFoundError if the collection does not exist; otherwise
computes the similarity of every stored vector to the query vector and
returns the top-`k` entries by descending cosine similarity, ties broken
by insertion order (an empty collection yields an empty QueryResult). -/
def query (ix : Index) (cname : String) (v : Vec) (k : Nat) : Except VError (List QEntry) :=
  match findColl ix cname with
  | none => .error .notFoundError
  | some c => .ok ((List.insertionSort (rankRel v) (indexEntries 0 c.entries)).take k)

/-- Insert or replace an entry by chunk id, preserving insertion order for
a replaced chunk. -/
def upsertEntries (ch : Chunk) (vec : Vec) : List (Chunk × Vec) → List (Chunk × Vec)
  | [] => [(ch, vec)]
  | e :: es => if e.1.id = ch.id then (ch, vec) :: es else e :: upsertEntries ch vec es

/-- Write a collection under a name, replacing an existing binding. -/
def setColl : Index → String → Collection → Index
  | [], cname, c => [(cname, c)]
  | (n, c0) :: rest, cname, c =>
    if n = cname then (cname, c) :: rest else (n, c0) :: setColl rest cname c

/-- Modelled from the spec: `upsert(collection, chunk, embedding)` (§4.2):
fails with DimensionMismatchError if the embedding's dimension disagrees
with the collection's established dimension; otherwise inserts or replaces
by chunk id (creating the collection, and establishing its dimension, on
first write). -/
def upsert (ix : Index) (cname : String) (ch : Chunk) (vec : Vec) : Except VError Index :=
  match findColl ix cname with
  | none => .ok (setColl ix cname ⟨[(ch, vec)], some vec.length⟩)
  | some c =>
    match c.dim with
    | none => .ok (setColl ix cname ⟨upsertEntries ch vec c.entries, some vec.length⟩)
    | some D =>
      if vec.length = D then .ok (setColl ix cname ⟨upsertEntries ch vec c.entries, some D⟩)
      else .error .dimensionMismatchError

/-- The index state after an `upsert` call: the new index on success, the
unchanged index on failure. -/
def upsertRun (ix : Index) (cname : String) (ch : Chunk) (vec : Vec) : Index :=
  match upsert ix cname ch vec with
  | .ok ix2 => ix2
  | .error _ => ix

/-- Modelled from the spec: `delete_collection(collection)` (§4.2): removes
all chunks and vectors of the named collection from memory; deleting an
absent collection is not an error. -/
def delete_collection : Index → String → Index
  | [], _ => []
  | (n, c) :: rest, cname =>
    if n = cname then delete_collection rest cname
    else (n, c) :: delete_collection rest cname

/-- Modelled from the spec: durable storage (§6), a finite map from
persist directories to the index contents last written there. -/
abbrev Storage := List (String × Index)

/-- Write an index under a directory in durable storage, replacing an
existing binding. -/
def setDir : Storage → String → Index → Storage
  | [], dir, ix => [(dir, ix)]
  | (d, i0) :: rest, dir, ix =>
    if d = dir then (dir, ix) :: rest else (d, i0) :: setDir rest dir ix

/-- Look up the index persisted under a directory. -/
def findDir : Storage → String → Option Index
  | [], _ => none
  | (d, i) :: rest, dir => if d = dir then some i else findDir rest dir

/-- Modelled from the spec: `persist` (§4.2): durably writes all chunks,
metadata and vectors of the in-memory index to the storage slot of the
given persist directory. -/
def persist (st : Storage) (dir : String) (ix : Index) : Storage := setDir st dir ix

/-- Modelled from the spec: well-formedness of a persisted collection
(§6): every stored vector's dimension equals the collection's established
dimension, and a collection without an established dimension is empty. -/
def collWF (c : Collection) : Bool :=
  match c.dim with
  | none => c.entries.isEmpty
  | some D => c.entries.all fun e => e.2.length == D

/-- Modelled from the spec: `load(path)` (§4.2): reconstructs the
in-memory index from the storage slot of the given directory, failing with
CorruptStateError if the slot is absent or any record's dimension is
inconsistent. -/
def load (st : Storage) (dir : String) : Except VError Index :=
  match findDir st dir with
  | none => .error .corruptStateError
  | some ix => if ix.all (fun p => collWF p.2) then .ok ix else .error .corruptStateError

/-- Modelled from the spec: a store handle as created by the notebooks'
`Chroma.from_documents` (§2): the in-memory index plus the optional
persist directory (`qa.ipynb` passes none, `persistent-qa.ipynb` passes
`db`). -/
structure Client where
  dir : Option String
  ix : Index

/-- Modelled from the spec: `persist()` on a store handle: a handle with a
persist directory writes its index there; a handle without one writes
nothing. -/
def clientPersist (st : Storage) (cl : Client) : Storage :=
  match cl.dir with
  | none => st
  | some d => persist st d cl.ix

/-- Modelled from the spec: the retrieval step of the QA chain (§4.3):
querying through a store handle reads only the in-memory index. -/
def clientQuery (cl : Client) (cname : String) (v : Vec) (k : Nat) :
    Except VError (List QEntry) :=
  query cl.ix cname v k

lemma posn_pos (x : ℚ) : 0 < posn x := by
  unfold posn
  split
  · exact one_pos
  · exact lt_of_not_le (by assumption)

lemma sqrt_posn_pos (x : ℚ) : 0 < Real.sqrt ((posn x : ℚ) : ℝ) :=
  Real.sqrt_pos.mpr (by exact_mod_cast posn_pos x)

lemma mul_sqrt_le_iff (x y u w : ℚ) (hx : 0 ≤ x) (hy : 0 ≤ y) (hu : 0 < u) (hw : 0 < w) :
    ((x : ℝ) * Real.sqrt ((u : ℚ) : ℝ) ≤ (y : ℝ) * Real.sqrt ((w : ℚ) : ℝ)) ↔
      x * x * u ≤ y * y * w := by
  have hx' : (0 : ℝ) ≤ (x : ℝ) := by exact_mod_cast hx
  have hy' : (0 : ℝ) ≤ (y : ℝ) := by exact_mod_cast hy
  have hu' : (0 : ℝ) ≤ ((u : ℚ) : ℝ) := by exact_mod_cast hu.le
  have hw' : (0 : ℝ) ≤ ((w : ℚ) : ℝ) := by exact_mod_cast hw.le
  rw [mul_self_le_mul_self_iff (mul_nonneg hx' (Real.sqrt_nonneg _))
    (mul_nonneg hy' (Real.sqrt_nonneg _))]
  have e1 : (x : ℝ) * Real.sqrt ((u : ℚ) : ℝ) * ((x : ℝ) * Real.sqrt ((u : ℚ) : ℝ)) =
      (x : ℝ) * (x : ℝ) * (Real.sqrt ((u : ℚ) : ℝ) * Real.sqrt ((u : ℚ) : ℝ)) := by ring
  have e2 : (y : ℝ) * Real.sqrt ((w : ℚ) : ℝ) * ((y : ℝ) * Real.sqrt ((w : ℚ) : ℝ)) =
      (y : ℝ) * (y : ℝ) * (Real.sqrt ((w : ℚ) : ℝ) * Real.sqrt ((w : ℚ) : ℝ)) := by ring
  rw [e1, e2, Real.mul_self_sqrt hu', Real.mul_self_sqrt hw']
  constructor <;> intro h <;> exact_mod_cast h

lemma simGEb_iff (a nu b nw : ℚ) : simGEb a nu b nw = true ↔ ev b nw ≤ ev a nu := by
  have hpu := sqrt_posn_pos nu
  have hpw := sqrt_posn_pos nw
  unfold simGEb ev
  rcases le_or_lt 0 a with ha | ha <;> rcases le_or_lt 0 b with hb | hb
  · rw [if_pos ha, if_pos hb, decide_eq_true_eq, div_le_div_iff₀ hpw hpu,
      mul_sqrt_le_iff b a (posn nu) (posn nw) hb ha (posn_pos nu) (posn_pos nw)]
  · rw [if_pos ha, if_neg (not_le.mpr hb)]
    have h1 : (b : ℝ) / Real.sqrt ((posn nw : ℚ) : ℝ) < 0 :=
      div_neg_of_neg_of_pos (by exact_mod_cast hb) hpw
    have h2 : (0 : ℝ) ≤ (a : ℝ) / Real.sqrt ((posn nu : ℚ) : ℝ) :=
      div_nonneg (by exact_mod_cast ha) hpu.le
    exact iff_of_true rfl (by linarith)
  · rw [if_neg (not_le.mpr ha), if_pos hb]
    have h1 : (a : ℝ) / Real.sqrt ((posn nu : ℚ) : ℝ) < 0 :=
      div_neg_of_neg_of_pos (by exact_mod_cast ha) hpu
    have h2 : (0 : ℝ) ≤ (b : ℝ) / Real.sqrt ((posn nw : ℚ) : ℝ) :=
      div_nonneg (by exact_mod_cast hb) hpw.le
    exact iff_of_false (by simp) (not_le.mpr (lt_of_lt_of_le h1 h2))
  · rw [if_neg (not_le.mpr ha), if_neg (not_le.mpr hb), decide_eq_true_eq,
      div_le_div_iff₀ hpw hpu]
    have key := mul_sqrt_le_iff (-a) (-b) (posn nw) (posn nu) (by linarith) (by linarith)
      (posn_pos nw) (posn_pos nu)
    have ca : ((-a : ℚ) : ℝ) = -((a : ℚ) : ℝ) := by push_cast; ring
    have cb : ((-b : ℚ) : ℝ) = -((b : ℚ) : ℝ) := by push_cast; ring
    rw [ca, cb, neg_mul, neg_mul, neg_le_neg_iff, neg_mul_neg, neg_mul_neg] at key
    exact key.symm

lemma normSq_cons (x : ℚ) (xs : Vec) : normSq (x :: xs) = x * x + normSq xs := by
  simp [normSq, dotQ]

lemma normSq_nonneg (u : Vec) : 0 ≤ normSq u := by
  induction u with
  | nil => simp [normSq, dotQ]
  | cons x xs ih =>
    rw [normSq_cons]
    have := mul_self_nonneg x
    linarith

lemma dotQ_comm (u v : Vec) : dotQ u v = dotQ v u := by
  induction u generalizing v with
  | nil => cases v <;> simp [dotQ]
  | cons x xs ih =>
    cases v with
    | nil => simp [dotQ]
    | cons y ys =>
      show x * y + dotQ xs ys = y * x + dotQ ys xs
      rw [mul_comm x y, ih ys]

lemma dotQ_eq_zero_of_normSq_right (q u : Vec) (h : normSq u = 0) : dotQ q u = 0 := by
  induction u generalizing q with
  | nil => cases q <;> simp [dotQ]
  | cons x xs ih =>
    rw [normSq_cons] at h
    have h1 := mul_self_nonneg x
    have h2 := normSq_nonneg xs
    have hx : x = 0 := mul_self_eq_zero.mp (by linarith)
    have hxs : normSq xs = 0 := by linarith
    cases q with
    | nil => simp [dotQ]
    | cons a as =>
      show a * x + dotQ as xs = 0
      rw [hx, ih as hxs, mul_zero, add_zero]

lemma dotQ_eq_zero_of_normSq_left (q u : Vec) (h : normSq q = 0) : dotQ q u = 0 := by
  rw [dotQ_comm]
  exact dotQ_eq_zero_of_normSq_right u q h

lemma dotR_map_div (q : Vec) (c d : ℝ) :
    ∀ u : Vec, dotR (q.map fun x : ℚ => (x : ℝ) / c) (u.map fun x : ℚ => (x : ℝ) / d) =
      (dotQ q u : ℝ) / (c * d) := by
  induction q with
  | nil => intro u; simp [dotR, dotQ]
  | cons x xs ih =>
    intro u
    cases u with
    | nil => simp [dotR, dotQ]
    | cons y ys =>
      have ihys := ih ys
      simp only [dotR, List.map_cons, List.zipWith_cons_cons, List.sum_cons] at ihys ⊢
      rw [ihys, div_mul_div_comm,
        show dotQ (x :: xs) (y :: ys) = x * y + dotQ xs ys from rfl]
      push_cast
      rw [div_add_div_same]

lemma cosSim_eq (q u : Vec) :
    cosSim q u = (dotQ q u : ℝ) /
      (Real.sqrt ((normSq q : ℚ) : ℝ) * Real.sqrt ((normSq u : ℚ) : ℝ)) := by
  unfold cosSim l2normalize
  exact dotR_map_div q _ _ u

lemma cosSim_eq_ev_div (q u : Vec) :
    cosSim q u = ev (dotQ q u) (normSq u) / Real.sqrt ((normSq q : ℚ) : ℝ) := by
  rw [cosSim_eq, ev]
  rcases eq_or_lt_of_le (normSq_nonneg u) with h | h
  · rw [dotQ_eq_zero_of_normSq_right q u h.symm]
    simp
  · have hpos : posn (normSq u) = normSq u := by
      unfold posn
      rw [if_neg (not_le.mpr h)]
    rw [hpos, div_div, mul_comm]

lemma cosSim_le_of_evOf_le (v : Vec) (x y : QEntry) (h : evOf v y ≤ evOf v x) :
    cosSim v y.vec ≤ cosSim v x.vec := by
  rw [cosSim_eq_ev_div, cosSim_eq_ev_div]
  rcases eq_or_lt_of_le (Real.sqrt_nonneg ((normSq v : ℚ) : ℝ)) with hq | hq
  · rw [← hq, div_zero, div_zero]
  · exact (div_le_div_iff_of_pos_right hq).mpr h

lemma evOf_eq_of_cosSim_eq (v : Vec) (x y : QEntry) (h : cosSim v x.vec = cosSim v y.vec) :
    evOf v x = evOf v y := by
  rcases eq_or_lt_of_le (normSq_nonneg v) with hv | hv
  · unfold evOf
    rw [dotQ_eq_zero_of_normSq_left v x.vec hv.symm, dotQ_eq_zero_of_normSq_left v y.vec hv.symm]
    simp [ev]
  · have hq : (0 : ℝ) < Real.sqrt ((normSq v : ℚ) : ℝ) :=
      Real.sqrt_pos.mpr (by exact_mod_cast hv)
    rw [cosSim_eq_ev_div, cosSim_eq_ev_div] at h
    have h2 := (div_eq_div_iff hq.ne' hq.ne').mp h
    exact mul_right_cancel₀ hq.ne' h2

lemma rankRel_iff (q : Vec) (x y : QEntry) :
    rankRel q x y ↔ evOf q y ≤ evOf q x ∧ (evOf q x ≤ evOf q y → x.idx ≤ y.idx) := by
  unfold rankRel rankB
  rw [Bool.and_eq_true, Bool.or_eq_true, Bool.not_eq_true', Nat.ble_eq]
  rw [show (simGEb (dotQ q x.vec) (normSq x.vec) (dotQ q y.vec) (normSq y.vec) = true) =
    (evOf q y ≤ evOf q x) from propext (simGEb_iff _ _ _ _)]
  constructor
  · rintro ⟨h1, h2⟩
    refine ⟨h1, fun hle => ?_⟩
    rcases h2 with h2 | h2
    · exact absurd ((simGEb_iff _ _ _ _).mpr hle) (by rw [h2]; exact Bool.false_ne_true)
    · exact h2
  · rintro ⟨h1, h2⟩
    refine ⟨h1, ?_⟩
    by_cases hle : evOf q x ≤ evOf q y
    · exact Or.inr (h2 hle)
    · left
      rcases hb : simGEb (dotQ q y.vec) (normSq y.vec) (dotQ q x.vec) (normSq x.vec) with _ | _
      · rfl
      · exact absurd ((simGEb_iff _ _ _ _).mp hb) hle

lemma rankRel_total (q : Vec) : ∀ x y, rankRel q x y ∨ rankRel q y x := by
  intro x y
  rw [rankRel_iff, rankRel_iff]
  rcases lt_trichotomy (evOf q x) (evOf q y) with h | h | h
  · exact Or.inr ⟨h.le, fun h' => absurd h' (not_le.mpr h)⟩
  · rcases Nat.le_total x.idx y.idx with hi | hi
    · exact Or.inl ⟨h.ge, fun _ => hi⟩
    · exact Or.inr ⟨h.le, fun _ => hi⟩
  · exact Or.inl ⟨h.le, fun h' => absurd h' (not_le.mpr h)⟩

lemma rankRel_trans (q : Vec) : ∀ x y z, rankRel q x y → rankRel q y z → rankRel q x z := by
  intro x y z hxy hyz
  rw [rankRel_iff] at hxy hyz ⊢
  obtain ⟨h1, h2⟩ := hxy
  obtain ⟨h3, h4⟩ := hyz
  exact ⟨h3.trans h1, fun hxz => le_trans (h2 (hxz.trans h3)) (h4 (h1.trans hxz))⟩

lemma indexEntries_length (i : Nat) (es : List (Chunk × Vec)) :
    (indexEntries i es).length = es.length := by
  induction es generalizing i with
  | nil => simp [indexEntries]
  | cons e es ih => simp [indexEntries, ih]

lemma indexEntries_map_idx (i : Nat) (es : List (Chunk × Vec)) :
    (indexEntries i es).map QEntry.idx = List.range' i es.length := by
  induction es generalizing i with
  | nil => simp [indexEntries]
  | cons e es ih => simp [indexEntries, ih, List.range'_succ]

lemma findDir_setDir (st : Storage) (dir : String) (ix : Index) :
    findDir (setDir st dir ix) dir = some ix := by
  induction st with
  | nil => simp [setDir, findDir]
  | cons p rest ih =>
    obtain ⟨d, i0⟩ := p
    by_cases hd : d = dir
    · simp [setDir, findDir, hd]
    · simp [setDir, findDir, hd, ih]

lemma findColl_delete_self (ix : Index) (cname : String) :
    findColl (delete_collection ix cname) cname = none := by
  induction ix with
  | nil => simp [delete_collection, findColl]
  | cons p rest ih =>
    obtain ⟨n, c⟩ := p
    by_cases hn : n = cname
    · simp [delete_collection, hn, ih]
    · simp [delete_collection, findColl, hn, ih]

lemma delete_of_findColl_none (ix : Index) (cname : String)
    (h : findColl ix cname = none) : delete_collection ix cname = ix := by
  induction ix with
  | nil => simp [delete_collection]
  | cons p rest ih =>
    obtain ⟨n, c⟩ := p
    by_cases hn : n = cname
    · rw [findColl, if_pos hn] at h
      exact absurd h (by simp)
    · rw [findColl, if_neg hn] at h
      rw [delete_collection, if_neg hn, ih h]

/-- C1: for a collection of N stored vectors, a query vector v and a
requested count k, `query` succeeds and returns exactly `min k N` results,
pairwise sorted by non-increasing cosine similarity to v (cosine similarity
being the dot product of the L2-normalized vectors), with similarity ties
broken in favor of the earlier-inserted chunk. -/
theorem query_ranking (ix : Index) (cname : String) (v : Vec) (k : Nat) (c : Collection)
    (h : findColl ix cname = some c) :
    ∃ res, query ix cname v k = .ok res ∧
      res.length = min k c.entries.length ∧
      List.Pairwise (fun x y : QEntry =>
        cosSim v y.vec ≤ cosSim v x.vec ∧
          (cosSim v x.vec = cosSim v y.vec → x.idx < y.idx)) res := by
  refine ⟨(List.insertionSort (rankRel v) (indexEntries 0 c.entries)).take k, ?_, ?_, ?_⟩
  · simp only [query, h]
  · rw [List.length_take, (List.perm_insertionSort (rankRel v) _).length_eq,
      indexEntries_length]
  · haveI : IsTotal QEntry (rankRel v) := ⟨rankRel_total v⟩
    haveI : IsTrans QEntry (rankRel v) := ⟨rankRel_trans v⟩
    have hsorted : List.Pairwise (rankRel v)
        ((List.insertionSort (rankRel v) (indexEntries 0 c.entries)).take k) :=
      List.Pairwise.sublist (List.take_sublist k _)
        (List.sorted_insertionSort (rankRel v) _)
    have h0 : ((indexEntries 0 c.entries).map QEntry.idx).Nodup := by
      rw [indexEntries_map_idx]
      exact List.nodup_range' _ _
    have h1 : ((List.insertionSort (rankRel v) (indexEntries 0 c.entries)).map
        QEntry.idx).Nodup :=
      (((List.perm_insertionSort (rankRel v) _).map QEntry.idx).symm).nodup h0
    have h2 : (((List.insertionSort (rankRel v) (indexEntries 0 c.entries)).take k).map
        QEntry.idx).Nodup := by
      rw [List.map_take]
      exact List.Nodup.sublist (List.take_sublist k _) h1
    have hne : List.Pairwise (fun x y : QEntry => x.idx ≠ y.idx)
        ((List.insertionSort (rankRel v) (indexEntries 0 c.entries)).take k) :=
      List.pairwise_map.mp h2
    refine (hsorted.and hne).imp ?_
    rintro a b ⟨hr, hne'⟩
    rw [rankRel_iff] at hr
    refine ⟨cosSim_le_of_evOf_le v a b hr.1, fun heq => ?_⟩
    have hev := evOf_eq_of_cosSim_eq v a b heq
    exact lt_of_le_of_ne (hr.2 hev.le) hne'

/-- Example chunks, collection, index and storage, used to instantiate the
claim theorems at concrete inputs. -/
def exChunkA : Chunk := ⟨0, 7, ['d', 'o', 'g'], 0, 3, [("k", "v")], 0⟩

/-- Example chunk, second entry of the example collection. -/
def exChunkB : Chunk := ⟨1, 7, ['c', 'a', 't'], 3, 6, [("k", "v")], 1⟩

/-- Example collection holding two 2-dimensional vectors. -/
def exColl : Collection := ⟨[(exChunkA, [1, 0]), (exChunkB, [0, 1])], some 2⟩

/-- Example index holding the example collection under the name docs. -/
def exIx : Index := [("docs", exColl)]

/-- C1 witness: the ranking contract instantiated at the example index, a
concrete query vector and k = 1. -/
theorem query_ranking_witness :
    ∃ res, query exIx "docs" [1, 0] 1 = .ok res ∧
      res.length = min 1 exColl.entries.length ∧
      List.Pairwise (fun x y : QEntry =>
        cosSim [1, 0] y.vec ≤ cosSim [1, 0] x.vec ∧
          (cosSim [1, 0] x.vec = cosSim [1, 0] y.vec → x.idx < y.idx)) res :=
  query_ranking exIx "docs" [1, 0] 1 exColl rfl

/-- C2: persisting an index and reconstructing it via `load` from the same
persist directory succeeds and yields an index whose `query` results are
identical to the pre-persist in-memory index, for every collection name,
query vector and k. -/
theorem persist_load_roundtrip (st : Storage) (dir : String) (ix : Index)
    (h : ∀ p ∈ ix, collWF p.2 = true) :
    load (persist st dir ix) dir = .ok ix ∧
    ∀ ix2, load (persist st dir ix) dir = .ok ix2 →
      ∀ cname v k, query ix2 cname v k = query ix cname v k := by
  have h1 : load (persist st dir ix) dir = .ok ix := by
    simp only [load, persist, findDir_setDir]
    rw [if_pos (List.all_eq_true.mpr h)]
  refine ⟨h1, ?_⟩
  intro ix2 h2 cname v k
  rw [h1] at h2
  cases h2
  rfl

/-- C2 witness: the persist/load roundtrip at the example index and an
empty prior storage. -/
theorem persist_load_roundtrip_witness :
    load (persist [] "db" exIx) "db" = .ok exIx ∧
    ∀ ix2, load (persist [] "db" exIx) "db" = .ok ix2 →
      ∀ cname v k, query ix2 cname v k = query exIx cname v k :=
  persist_load_roundtrip [] "db" exIx (by decide)

/-- C4: querying a collection that does not exist fails with NotFoundError,
while querying a collection that exists but holds no vectors returns an
empty QueryResult rather than an error. -/
theorem query_empty_or_missing (ix : Index) (cname : String) (v : Vec) (k : Nat) :
    (findColl ix cname = none → query ix cname v k = .error .notFoundError) ∧
    (∀ c, findColl ix cname = some c → c.entries = [] → query ix cname v k = .ok []) := by
  constructor
  · intro h
    simp only [query, h]
  · intro c h he
    simp only [query, h, he, indexEntries]
    simp [List.insertionSort]

/-- C4 witness: a missing collection errors and an empty existing
collection yields an empty result. -/
theorem query_empty_or_missing_witness :
    query [] "missing" [1] 2 = .error .notFoundError ∧
    query [("empty", ⟨[], none⟩)] "empty" [1] 2 = .ok [] :=
  ⟨(query_empty_or_missing [] "missing" [1] 2).1 rfl,
    (query_empty_or_missing [("empty", ⟨[], none⟩)] "empty" [1] 2).2 ⟨[], none⟩ rfl rfl⟩

/-- C5: upserting an embedding whose dimension differs from the
collection's established dimension fails with DimensionMismatchError, and
the index state after the call is exactly the index state before it. -/
theorem upsert_dimension_mismatch (ix : Index) (cname : String) (ch : Chunk) (vec : Vec)
    (c : Collection) (D : Nat) (h : findColl ix cname = some c) (hd : c.dim = some D)
    (hv : vec.length ≠ D) :
    upsert ix cname ch vec = .error .dimensionMismatchError ∧
    upsertRun ix cname ch vec = ix := by
  have h1 : upsert ix cname ch vec = .error .dimensionMismatchError := by
    simp only [upsert, h, hd]
    rw [if_neg hv]
  exact ⟨h1, by simp only [upsertRun, h1]⟩

/-- C5 witness: a 3-dimensional vector is rejected by the 2-dimensional
example collection and the index is unchanged. -/
theorem upsert_dimension_mismatch_witness :
    upsert exIx "docs" exChunkA [1, 2, 3] = .error .dimensionMismatchError ∧
    upsertRun exIx "docs" exChunkA [1, 2, 3] = exIx :=
  upsert_dimension_mismatch exIx "docs" exChunkA [1, 2, 3] exColl 2 rfl rfl (by decide)

/-- C6: after `delete_collection`, the collection is gone: looking it up
yields nothing, querying it fails with NotFoundError, a subsequent
`persist` writes a storage slot containing no binding for it, deleting it
again is a no-op, and deleting an absent collection leaves the index
unchanged (no error). -/
theorem delete_collection_contract (ix : Index) (cname : String) (st : Storage)
    (dir : String) (v : Vec) (k : Nat) :
    findColl (delete_collection ix cname) cname = none ∧
    query (delete_collection ix cname) cname v k = .error .notFoundError ∧
    (∀ ix2, findDir (persist st dir (delete_collection ix cname)) dir = some ix2 →
      findColl ix2 cname = none) ∧
    delete_collection (delete_collection ix cname) cname = delete_collection ix cname ∧
    (findColl ix cname = none → delete_collection ix cname = ix) := by
  have h1 := findColl_delete_self ix cname
  refine ⟨h1, by simp only [query, h1], ?_, delete_of_findColl_none _ _ h1,
    delete_of_findColl_none ix cname⟩
  intro ix2 h2
  rw [persist, findDir_setDir] at h2
  cases h2
  exact h1

/-- C6 witness: the deletion contract at the example index. -/
theorem delete_collection_contract_witness :
    findColl (delete_collection exIx "docs") "docs" = none ∧
    query (delete_collection exIx "docs") "docs" [1, 0] 2 = .error .notFoundError ∧
    findColl (delete_collection exIx "docs") "docs" = none ∧
    delete_collection (delete_collection exIx "docs") "docs" = delete_collection exIx "docs" ∧
    delete_collection [("other", exColl)] "docs" = [("other", exColl)] := by
  have h := delete_collection_contract exIx "docs" [] "db" [1, 0] 2
  have h' := delete_collection_contract [("other", exColl)] "docs" [] "db" [1, 0] 2
  exact ⟨h.1, h.2.1, h.2.2.1 (delete_collection exIx "docs") (findDir_setDir [] "db" _),
    h.2.2.2.1, h'.2.2.2.2 rfl⟩

/-- C10: a store handle created without a persist directory is ephemeral:
its `persist` leaves durable storage unchanged, so loading any directory
afterwards returns exactly what it returned before, while its queries
agree with those of any handle holding the same in-memory index (in
particular a persisted one). -/
theorem ephemeral_client (st : Storage) (cl : Client) (h : cl.dir = none) :
    clientPersist st cl = st ∧
    (∀ dir, load (clientPersist st cl) dir = load st dir) ∧
    (∀ cl2 : Client, cl2.ix = cl.ix →
      ∀ cname v k, clientQuery cl cname v k = clientQuery cl2 cname v k) := by
  have h1 : clientPersist st cl = st := by
    simp only [clientPersist, h]
  refine ⟨h1, fun dir => by rw [h1], ?_⟩
  intro cl2 hix cname v k
  simp only [clientQuery, hix]

/-- C10 witness: an ephemeral handle over the example index writes nothing
and queries like a persisted handle with the same index. -/
theorem ephemeral_client_witness :
    clientPersist [("db", exIx)] ⟨none, exIx⟩ = [("db", exIx)] ∧
    (∀ dir, load (clientPersist [("db", exIx)] ⟨none, exIx⟩) dir = load [("db", exIx)] dir) ∧
    (∀ cl2 : Client, cl2.ix = exIx →
      ∀ cname v k, clientQuery ⟨none, exIx⟩ cname v k = clientQuery cl2 cname v k) :=
  ephemeral_client [("db", exIx)] ⟨none, exIx⟩ rfl

end RAG
